import Mathlib

/-!
Shallow embedding of `src/extension.rs` from the nifti-rs repository:
the NIfTI-1.1 extender flag, extension records, and the extension
sequence decoder.  Bytes are modelled as `Nat` (values below 256),
`i32` values as `Int` with explicit wrapping where the source casts,
and `usize` arithmetic as `Nat` with explicit reductions modulo `2^64`.
Byte sources are finite lists of bytes; the reader used by the optional
extender fetch additionally carries a terminal I/O condition so that
non-EOF I/O failures can be expressed.
-/

/-- Interpretation of a `u32` bit pattern as a signed 32-bit value
(two's complement), reduced modulo `2^32` first. -/
def toI32 (n : Nat) : Int :=
  if n % 4294967296 < 2147483648 then ((n % 4294967296 : Nat) : Int)
  else ((n % 4294967296 : Nat) : Int) - 4294967296

/-- Wrap an unbounded integer into the signed 32-bit range
(two's complement), modelling Rust wrapping `i32` arithmetic and
`as i32` casts. -/
def i32OfInt (x : Int) : Int :=
  if x % 4294967296 < 2147483648 then x % 4294967296
  else x % 4294967296 - 4294967296

/-- The `u32` bit pattern of a signed 32-bit value. -/
def u32OfI32 (x : Int) : Nat :=
  (x % 4294967296).toNat

/-- Rust `esize as usize` on a 64-bit target: sign-extend the `i32`
to 64 bits and reinterpret as unsigned, i.e. reduce modulo `2^64`. -/
def i32AsUsize (x : Int) : Nat :=
  (x % 18446744073709551616).toNat

/-- Bitwise AND of two `i32` values (`a & b` in Rust), via their
32-bit two's-complement bit patterns. -/
def i32Land (a b : Int) : Int :=
  toI32 (Nat.land (u32OfI32 a) (u32OfI32 b))

/-- Byte order of the `ByteOrdered` source (the `byteordered::Endianness`
values used by `read_i32`). -/
inductive Endianness where
  | little
  | big
deriving DecidableEq, Repr

/-- Recombine four bytes into a `u32` according to the byte order. -/
def u32OfBytes (bo : Endianness) (b0 b1 b2 b3 : Nat) : Nat :=
  match bo with
  | .little => b0 + 256 * b1 + 65536 * b2 + 16777216 * b3
  | .big => b3 + 256 * b2 + 65536 * b1 + 16777216 * b0

/-- `source.read_i32()` on a byte-list source: consume four bytes and
decode a signed 32-bit value honoring the byte order; `none` models the
`UnexpectedEof` I/O error when fewer than four bytes remain. -/
def readI32 (bo : Endianness) : List Nat → Option (Int × List Nat)
  | b0 :: b1 :: b2 :: b3 :: rest => some (toI32 (u32OfBytes bo b0 b1 b2 b3), rest)
  | _ => none

/-- Kinds of I/O error surfaced by a reader, as distinguished by
`Extender::from_reader_optional`: the end-of-stream kind versus any
other kind (represented by an opaque code). -/
inductive IoErrorKind where
  | unexpectedEof
  | other (code : Nat)
deriving DecidableEq, Repr

/-- A byte source for the extender reads: the bytes still available,
followed by a terminal condition — `none` models a clean end of stream,
`some k` a reader that reports an I/O error of kind `k` once the bytes
are exhausted. -/
structure RSource where
  bytes : List Nat
  term : Option IoErrorKind
deriving DecidableEq, Repr

/-- `source.read_exact(&mut [0u8; 4])`: succeed with four bytes when
available; otherwise consume what remains and surface the reader's
error kind, or `UnexpectedEof` when the stream simply ended. -/
def readExact4 (s : RSource) : Except IoErrorKind ((Nat × Nat × Nat × Nat) × RSource) :=
  match s.bytes with
  | b0 :: b1 :: b2 :: b3 :: rest => .ok ((b0, b1, b2, b3), ⟨rest, s.term⟩)
  | _ =>
    match s.term with
    | some k => .error k
    | none => .error .unexpectedEof

/-- The 4-byte extender code (`Extender([u8; 4])`). -/
structure Extender where
  b0 : Nat
  b1 : Nat
  b2 : Nat
  b3 : Nat
deriving DecidableEq, Repr

/-- `Extender::has_extensions`: byte 0 is non-zero. -/
def Extender.hasExtensions (e : Extender) : Bool :=
  e.b0 != 0

/-- `Extender::from_reader`: fetch the extender, requiring it to exist. -/
def Extender.fromReader (s : RSource) : Except IoErrorKind (Extender × RSource) :=
  match readExact4 s with
  | .ok ((b0, b1, b2, b3), s1) => .ok (⟨b0, b1, b2, b3⟩, s1)
  | .error e => .error e

/-- `Extender::from_reader_optional`: fetch the extender, mapping an
`UnexpectedEof` failure of `read_exact` to `Ok(None)` (the stream's
available bytes have been consumed by then) and delegating any other
I/O error. -/
def Extender.fromReaderOptional (s : RSource) : Except IoErrorKind (Option Extender × RSource) :=
  match readExact4 s with
  | .ok ((b0, b1, b2, b3), s1) => .ok (some ⟨b0, b1, b2, b3⟩, s1)
  | .error .unexpectedEof => .ok (none, ⟨[], s.term⟩)
  | .error e => .error e

/-- One extension record (`struct Extension`): declared size, code and
payload, with `esize` and `ecode` ranging over `i32` values. -/
structure Extension where
  esize : Int
  ecode : Int
  edata : List Nat
deriving DecidableEq, Repr

/-- `Extension::new`: panics unless `esize as usize == 8 + edata.len()`;
`none` models the panic. -/
def Extension.new (esize ecode : Int) (edata : List Nat) : Option Extension :=
  if i32AsUsize esize = 8 + edata.length then some ⟨esize, ecode, edata⟩ else none

/-- `Extension::size` (the `esize` field). -/
def Extension.size (e : Extension) : Int :=
  e.esize

/-- `Extension::code` (the `ecode` field). -/
def Extension.code (e : Extension) : Int :=
  e.ecode

/-- `Extension::data` (the `edata` field). -/
def Extension.data (e : Extension) : List Nat :=
  e.edata

/-- `Extension::into_data`. -/
def Extension.intoData (e : Extension) : List Nat :=
  e.edata

/-- `Vec::resize(new_len, value)`: truncate or extend with `value`. -/
def listResize (l : List Nat) (n : Nat) (v : Nat) : List Nat :=
  if n ≤ l.length then l.take n else l ++ List.replicate (n - l.length) v

/-- Wrapping `usize` subtraction of 8 (`padded_esize as usize - 8` in
release mode). -/
def usizeSub8 (a : Nat) : Nat :=
  (a + 18446744073709551608) % 18446744073709551616

/-- `Extension::from_str(ecode, edata)`: `esize = 8 + edata.len() as i32`,
padded up with `(esize + 15) & !15`, payload zero-extended to
`padded_esize as usize - 8` bytes, then `Extension::new`.  The `text`
argument stands for the UTF-8 bytes of the `&str`. -/
def Extension.fromStr (ecode : Int) (text : List Nat) : Option Extension :=
  let esize := i32OfInt (8 + i32OfInt (text.length : Int))
  let paddedEsize := i32Land (esize + 15) (-16)
  let edata := listResize text (usizeSub8 (i32AsUsize paddedEsize)) 0
  Extension.new paddedEsize ecode edata

/-- Modelled from the spec: the error type `NiftiError` lives in the
repository's `src/error.rs`, which is not among the provided sources;
only the variants applied inside `src/extension.rs` are modelled, with
the payloads visible at those application sites (`ReserveExtended`
carries the requested size — its `TryReserveError` companion is
dropped — and `IncompatibleLength` carries the actual and expected
byte counts); `ioError` stands for any `NiftiError` wrapping an
underlying I/O error. -/
inductive NiftiError where
  | ioError
  | reserveExtended (size : Nat)
  | incompatibleLength (got : Nat) (expected : Nat)
deriving DecidableEq, Repr

/-- `let data_size = (esize as usize).saturating_sub(8);`
(`Nat` subtraction is saturating). -/
def dataSizeOf (esize : Int) : Nat :=
  i32AsUsize esize - 8

/-- Outcome of the decode loop in `ExtensionSequence::from_reader`:
a decoded list with the final offset and the unread remainder of the
source, an error, a panic inside `Extension::new`, or exhaustion of
the recursion fuel (an artifact of the fuelled model, proved
unreachable for adequate fuel). -/
inductive LoopResult where
  | ok (exts : List Extension) (offset : Nat) (rest : List Nat)
  | err (e : NiftiError)
  | panicked
  | fuelOut
deriving DecidableEq, Repr

/-- The `while offset < len` loop of `ExtensionSequence::from_reader`,
with explicit fuel for termination: read `esize` and `ecode`, compute
the payload length by saturating subtraction, reserve fallibly
(`canReserve` models the allocator's answer to `try_reserve_exact`),
read up to that many payload bytes, check the count, construct the
record with stored size `i32::max(esize, 8)` and advance the offset by
the raw `esize as usize` (wrapping `usize` addition). -/
def readLoopF (bo : Endianness) (canReserve : Nat → Bool) :
    Nat → List Nat → Nat → Nat → List Extension → LoopResult
  | 0, _, _, _, _ => .fuelOut
  | fuel + 1, src, len, offset, acc =>
    if offset < len then
      match readI32 bo src with
      | none => .err .ioError
      | some (esize, src1) =>
        match readI32 bo src1 with
        | none => .err .ioError
        | some (ecode, src2) =>
          let dataSize := dataSizeOf esize
          if canReserve dataSize then
            let edata := src2.take dataSize
            let nbBytesWritten := edata.length
            if nbBytesWritten ≠ dataSize then
              .err (.incompatibleLength nbBytesWritten dataSize)
            else
              match Extension.new (max esize 8) ecode edata with
              | some ext =>
                readLoopF bo canReserve fuel (src2.drop dataSize) len
                  ((offset + i32AsUsize esize) % 18446744073709551616) (acc ++ [ext])
              | none => .panicked
          else .err (.reserveExtended dataSize)
    else .ok acc offset src

/-- The extender code together with all extensions
(`struct ExtensionSequence`). -/
structure ExtensionSequence where
  extender : Extender
  extensions : List Extension
deriving DecidableEq, Repr

/-- `ExtensionSequence::new`. -/
def ExtensionSequence.mk' (extender : Extender) (extensions : List Extension) : ExtensionSequence :=
  ⟨extender, extensions⟩

/-- `ExtensionSequence::len`. -/
def ExtensionSequence.len (s : ExtensionSequence) : Nat :=
  s.extensions.length

/-- `ExtensionSequence::is_empty`. -/
def ExtensionSequence.isEmpty (s : ExtensionSequence) : Bool :=
  s.extensions.isEmpty

/-- `ExtensionSequence::bytes_on_disk`: sum of `e.size() as usize` over
the records, in wrapping `usize` arithmetic. -/
def ExtensionSequence.bytesOnDisk (s : ExtensionSequence) : Nat :=
  ((s.extensions.map fun e => i32AsUsize e.size).sum) % 18446744073709551616

/-- Result of `ExtensionSequence::from_reader`: the sequence plus the
unread remainder of the source, or an error; `panicked` and `fuelOut`
are inherited from the loop model. -/
inductive FromReaderResult where
  | ok (seq : ExtensionSequence) (rest : List Nat)
  | err (e : NiftiError)
  | panicked
  | fuelOut
deriving DecidableEq, Repr

/-- `ExtensionSequence::from_reader(extender, source, len)`: if the
extender signals no extensions, return the empty sequence without
consuming the source; otherwise run the decode loop from offset 0
(fuel `src.length + 1` is sufficient, see the termination theorem). -/
def ExtensionSequence.fromReader (bo : Endianness) (canReserve : Nat → Bool)
    (extender : Extender) (src : List Nat) (len : Nat) : FromReaderResult :=
  if extender.hasExtensions then
    match readLoopF bo canReserve (src.length + 1) src len 0 [] with
    | .ok exts _ rest => .ok ⟨extender, exts⟩ rest
    | .err e => .err e
    | .panicked => .panicked
    | .fuelOut => .fuelOut
  else .ok ⟨extender, []⟩ src

/-- Strip trailing zero bytes (the spec's notion of removing the zero
padding added by `from_str`). -/
def stripTrailingZeros (l : List Nat) : List Nat :=
  (l.reverse.dropWhile fun b => b == 0).reverse

/-- Spec-side wire encoding of an `i32` value (section 6 of the spec):
four bytes of its `u32` bit pattern in the given byte order. -/
def encodeI32 (bo : Endianness) (x : Int) : List Nat :=
  match bo with
  | .little => [u32OfI32 x % 256, u32OfI32 x / 256 % 256,
      u32OfI32 x / 65536 % 256, u32OfI32 x / 16777216 % 256]
  | .big => [u32OfI32 x / 16777216 % 256, u32OfI32 x / 65536 % 256,
      u32OfI32 x / 256 % 256, u32OfI32 x % 256]

/-- Spec-side wire encoding of one extension record: 4-byte size,
4-byte code, then the payload bytes. -/
def encodeExtension (bo : Endianness) (e : Extension) : List Nat :=
  encodeI32 bo e.esize ++ encodeI32 bo e.ecode ++ e.edata

/-- Spec-side wire encoding of a list of records, packed contiguously. -/
def encodeExtList (bo : Endianness) : List Extension → List Nat
  | [] => []
  | e :: es => encodeExtension bo e ++ encodeExtList bo es

/-- Spec-side well-formedness of one record on a valid stream: the
declared size is at least the 8-byte header minimum and in `i32` range,
the code is in `i32` range, the payload length matches
`declared size - 8`, and the allocator grants the payload reservation. -/
def ValidRecord (cr : Nat → Bool) (e : Extension) : Prop :=
  8 ≤ e.esize ∧ e.esize < 2147483648 ∧
  -2147483648 ≤ e.ecode ∧ e.ecode < 2147483648 ∧
  (e.edata.length : Int) = e.esize - 8 ∧
  cr e.edata.length = true

/-! ### Helper lemmas -/

theorem readI32_length {bo : Endianness} {src rest : List Nat} {x : Int}
    (h : readI32 bo src = some (x, rest)) : src.length = rest.length + 4 := by
  match src with
  | b0 :: b1 :: b2 :: b3 :: r =>
    simp only [readI32, Option.some.injEq, Prod.mk.injEq] at h
    simp [← h.2]
  | [] => simp [readI32] at h
  | [b0] => simp [readI32] at h
  | [b0, b1] => simp [readI32] at h
  | [b0, b1, b2] => simp [readI32] at h

/-! ### C1 — payload length computation -/

/-- C1 (counterexample): the claim says a negative declared size yields
payload length `max(declared_size - 8, 0) = 0`, but the code casts to
`usize` before the saturating subtraction, so `esize = -1` yields the
enormous length `2^64 - 9`, not `0`. -/
theorem dataSizeOf_c1_counterexample :
    dataSizeOf (-1) = 18446744073709551607 ∧ dataSizeOf (-1) ≠ ((-1 : Int) - 8).toNat := by
  constructor
  · decide
  · decide

/-- C1 (amended): the payload length is `(esize as usize).saturating_sub(8)`;
for a non-negative declared size this agrees with `max(esize - 8, 0)`
(so declared sizes in `[0, 8]` give payload length 0), but a negative
declared size first wraps to `2^64 + esize` and yields the enormous
length `2^64 + esize - 8`. -/
theorem dataSizeOf_c1_payload_len (esize : Int)
    (h1 : -2147483648 ≤ esize) (h2 : esize < 2147483648) :
    (0 ≤ esize → dataSizeOf esize = (esize - 8).toNat) ∧
    (esize < 0 → dataSizeOf esize = (18446744073709551616 + esize).toNat - 8) := by
  unfold dataSizeOf i32AsUsize
  constructor <;> intro h <;> omega

/-- C1 (witness): the amended theorem instantiated at `esize = -1`. -/
theorem dataSizeOf_c1_witness :
    dataSizeOf (-1) = (18446744073709551616 + (-1 : Int)).toNat - 8 :=
  (dataSizeOf_c1_payload_len (-1) (by decide) (by decide)).2 (by decide)

/-! ### C4 — no extensions signaled -/

/-- C4: when the extender's first byte is 0 (`has_extensions()` false),
`from_reader` succeeds with an empty extension list for every byte
budget and every source content, and consumes no bytes. -/
theorem fromReader_c4_no_extensions (bo : Endianness) (cr : Nat → Bool) (ext : Extender)
    (src : List Nat) (len : Nat) (h : ext.hasExtensions = false) :
    ExtensionSequence.fromReader bo cr ext src len = .ok ⟨ext, []⟩ src := by
  unfold ExtensionSequence.fromReader
  simp [h]

/-- C4 (witness): extender bytes `[0,1,2,3]`, arbitrary stream and budget. -/
theorem fromReader_c4_witness :
    ExtensionSequence.fromReader .little (fun _ => true) ⟨0, 1, 2, 3⟩ [9, 9, 9] 100
      = .ok ⟨⟨0, 1, 2, 3⟩, []⟩ [9, 9, 9] :=
  fromReader_c4_no_extensions .little (fun _ => true) ⟨0, 1, 2, 3⟩ [9, 9, 9] 100 (by decide)

/-! ### C6 — fallible buffer reservation -/

/-- C6: at any loop step, the buffer reservation is requested for exactly
the computed payload length, and when the allocator refuses, decoding
fails with the allocation-reservation error carrying that size. -/
theorem readLoopF_c6_reserve (bo : Endianness) (cr : Nat → Bool) (fuel : Nat)
    (src src1 src2 : List Nat) (len offset : Nat) (acc : List Extension) (esize ecode : Int)
    (hlt : offset < len)
    (h1 : readI32 bo src = some (esize, src1))
    (h2 : readI32 bo src1 = some (ecode, src2))
    (hcr : cr (dataSizeOf esize) = false) :
    readLoopF bo cr (fuel + 1) src len offset acc
      = .err (.reserveExtended (dataSizeOf esize)) := by
  simp only [readLoopF, hlt, if_true, h1, h2, hcr]
  simp

/-- C6 (witness): a record claiming `esize = 1000` against an allocator
that refuses anything above 100 bytes yields the reservation error
carrying the requested size 992. -/
theorem readLoopF_c6_witness :
    readLoopF .little (fun n => decide (n ≤ 100)) 1 [232, 3, 0, 0, 0, 0, 0, 0] 16 0 []
      = .err (.reserveExtended 992) := by
  have h := readLoopF_c6_reserve .little (fun n => decide (n ≤ 100)) 0
    [232, 3, 0, 0, 0, 0, 0, 0] [0, 0, 0, 0] [] 16 0 [] 1000 0
    (by decide) (by decide) (by decide) (by decide)
  exact h

/-! ### C5 — truncated payload -/

/-- C5: at any loop step where the reservation succeeds but strictly
fewer payload bytes remain than the computed payload length, decoding
fails with the length-mismatch error carrying the bytes actually read
and the bytes expected. -/
theorem readLoopF_c5_truncation (bo : Endianness) (cr : Nat → Bool) (fuel : Nat)
    (src src1 src2 : List Nat) (len offset : Nat) (acc : List Extension) (esize ecode : Int)
    (hlt : offset < len)
    (h1 : readI32 bo src = some (esize, src1))
    (h2 : readI32 bo src1 = some (ecode, src2))
    (hcr : cr (dataSizeOf esize) = true)
    (hshort : src2.length < dataSizeOf esize) :
    readLoopF bo cr (fuel + 1) src len offset acc
      = .err (.incompatibleLength src2.length (dataSizeOf esize)) := by
  have ht : (src2.take (dataSizeOf esize)).length = src2.length := by
    simp only [List.length_take]
    omega
  simp only [readLoopF, hlt, if_true, h1, h2, hcr]
  rw [if_pos]
  · simp [ht]
  · omega

/-- C5 (witness): the spec's concrete example — a record claiming
`declared_size = 32` followed by only 10 bytes before end-of-stream
fails with the pair `(10, 24)`. -/
theorem readLoopF_c5_witness :
    readLoopF .little (fun _ => true) 1
      [32, 0, 0, 0, 0, 0, 0, 0, 1, 2, 3, 4, 5, 6, 7, 8, 9, 10] 16 0 []
      = .err (.incompatibleLength 10 24) := by
  have h := readLoopF_c5_truncation .little (fun _ => true) 0
    [32, 0, 0, 0, 0, 0, 0, 0, 1, 2, 3, 4, 5, 6, 7, 8, 9, 10]
    [0, 0, 0, 0, 1, 2, 3, 4, 5, 6, 7, 8, 9, 10] [1, 2, 3, 4, 5, 6, 7, 8, 9, 10] 16 0 [] 32 0
    (by decide) (by decide) (by decide) (by decide) (by decide)
  exact h

/-! ### C8 — record construction contract -/

/-- C8: `Extension::new(esize, ecode, edata)` panics exactly when `esize`
differs from `8 + edata.len()` (for `i32`-ranged `esize` and a payload
within Rust's `Vec` length bound of `isize::MAX`), and otherwise returns
a record exposing exactly those three components through `size()`,
`code()` and `data()`. -/
theorem Extension_c8_new (esize ecode : Int) (edata : List Nat)
    (h1 : -2147483648 ≤ esize) (h2 : esize < 2147483648)
    (h3 : edata.length < 9223372036854775808) :
    (Extension.new esize ecode edata = none ↔ esize ≠ 8 + (edata.length : Int)) ∧
    (esize = 8 + (edata.length : Int) →
      ∃ ext, Extension.new esize ecode edata = some ext ∧
        ext.size = esize ∧ ext.code = ecode ∧ ext.data = edata) := by
  have key : ((esize % 18446744073709551616).toNat = 8 + edata.length) ↔
      esize = 8 + (edata.length : Int) := by
    omega
  unfold Extension.new i32AsUsize
  constructor
  · constructor
    · intro hn heq
      rw [if_pos (key.mpr heq)] at hn
      exact Option.noConfusion hn
    · intro hne
      rw [if_neg fun h => hne (key.mp h)]
  · intro heq
    refine ⟨⟨esize, ecode, edata⟩, ?_, rfl, rfl, rfl⟩
    rw [if_pos (key.mpr heq)]

/-- C8 (witness): the contract theorem instantiated at
`esize = 9, ecode = 6, edata = [42]`. -/
theorem Extension_c8_witness :
    (Extension.new 9 6 [42] = none ↔ (9 : Int) ≠ 8 + (([42] : List Nat).length : Int)) ∧
    ((9 : Int) = 8 + (([42] : List Nat).length : Int) →
      ∃ ext, Extension.new 9 6 [42] = some ext ∧
        ext.size = 9 ∧ ext.code = 6 ∧ ext.data = [42]) :=
  Extension_c8_new 9 6 [42] (by decide) (by decide) (by decide)

/-! ### C3 — stored size is clamped, offset advances by the raw size -/

/-- C3: at any loop step that decodes a record (payload fully read and
the construction succeeding), the stored record has
`size() = max(esize, 8)` while the offset advances by the raw wire
value `esize` (as cast to `usize`), not by the clamped stored size. -/
theorem readLoopF_c3_step (bo : Endianness) (cr : Nat → Bool) (fuel : Nat)
    (src src1 src2 : List Nat) (len offset : Nat) (acc : List Extension)
    (esize ecode : Int) (ext : Extension)
    (hlt : offset < len)
    (h1 : readI32 bo src = some (esize, src1))
    (h2 : readI32 bo src1 = some (ecode, src2))
    (hcr : cr (dataSizeOf esize) = true)
    (hfull : dataSizeOf esize ≤ src2.length)
    (hnew : Extension.new (max esize 8) ecode (src2.take (dataSizeOf esize)) = some ext) :
    readLoopF bo cr (fuel + 1) src len offset acc
      = readLoopF bo cr fuel (src2.drop (dataSizeOf esize)) len
          ((offset + i32AsUsize esize) % 18446744073709551616) (acc ++ [ext])
    ∧ ext.size = max esize 8 := by
  have ht : (src2.take (dataSizeOf esize)).length = dataSizeOf esize := by
    simp only [List.length_take]
    omega
  constructor
  · simp only [readLoopF, hlt, if_true, h1, h2, hcr]
    rw [if_neg (not_ne_iff.mpr ht), hnew]
  · unfold Extension.new at hnew
    split at hnew
    · cases hnew
      rfl
    · exact Option.noConfusion hnew

/-- C3 (witness): the spec's scenario — `esize = 16, ecode = 6` with the
8 payload bytes of the text `hello` padded with three NULs; the stored
record has size `max 16 8` and the offset advances from 0 to 16. -/
theorem readLoopF_c3_witness :
    readLoopF .little (fun _ => true) 1
      [16, 0, 0, 0, 6, 0, 0, 0, 104, 101, 108, 108, 111, 0, 0, 0] 16 0 []
      = readLoopF .little (fun _ => true) 0 [] 16
          ((0 + i32AsUsize 16) % 18446744073709551616)
          ([] ++ [⟨16, 6, [104, 101, 108, 108, 111, 0, 0, 0]⟩])
    ∧ Extension.size ⟨16, 6, [104, 101, 108, 108, 111, 0, 0, 0]⟩ = max 16 8 := by
  have h := readLoopF_c3_step .little (fun _ => true) 0
    [16, 0, 0, 0, 6, 0, 0, 0, 104, 101, 108, 108, 111, 0, 0, 0]
    [6, 0, 0, 0, 104, 101, 108, 108, 111, 0, 0, 0]
    [104, 101, 108, 108, 111, 0, 0, 0] 16 0 [] 16 6
    ⟨16, 6, [104, 101, 108, 108, 111, 0, 0, 0]⟩
    (by decide) (by decide) (by decide) (by decide) (by decide) (by decide)
  exact h

/-! ### C10 — termination on finite sources -/

theorem readLoopF_fuel_sufficient (bo : Endianness) (cr : Nat → Bool) :
    ∀ (fuel : Nat) (src : List Nat) (len offset : Nat) (acc : List Extension),
      src.length < fuel →
      readLoopF bo cr fuel src len offset acc ≠ .fuelOut := by
  intro fuel
  induction fuel with
  | zero =>
    intro src len offset acc h
    exact absurd h (Nat.not_lt_zero _)
  | succ f ih =>
    intro src len offset acc h
    by_cases hlt : offset < len
    · cases hr1 : readI32 bo src with
      | none => simp [readLoopF, hlt, hr1]
      | some p1 =>
        obtain ⟨esize, src1⟩ := p1
        cases hr2 : readI32 bo src1 with
        | none => simp [readLoopF, hlt, hr1, hr2]
        | some p2 =>
          obtain ⟨ecode, src2⟩ := p2
          have l1 := readI32_length hr1
          have l2 := readI32_length hr2
          by_cases hcr : cr (dataSizeOf esize) = true
          · by_cases hne2 : (src2.take (dataSizeOf esize)).length = dataSizeOf esize
            · cases hne : Extension.new (max esize 8) ecode (src2.take (dataSizeOf esize)) with
              | none => simp [readLoopF, hlt, hr1, hr2, hcr, hne2, hne]
              | some ext =>
                have hd : (src2.drop (dataSizeOf esize)).length ≤ src2.length := by
                  simp
                have hrec := ih (src2.drop (dataSizeOf esize)) len
                  ((offset + i32AsUsize esize) % 18446744073709551616) (acc ++ [ext])
                  (by omega)
                simpa [readLoopF, hlt, hr1, hr2, hcr, hne2, hne] using hrec
            · have hlt2 : src2.length < dataSizeOf esize := by
                simp only [List.length_take] at hne2
                omega
              simp [readLoopF, hlt, hr1, hr2, hcr, hlt2]
          · simp [readLoopF, hlt, hr1, hr2, hcr]
    · simp [readLoopF, hlt]

/-- C10: the decode loop of `from_reader` terminates on every finite
source — fuel exceeding the source length is never exhausted, because
every iteration either returns (success or error) or consumes at least
the 8 header bytes; consequently `from_reader` itself always returns a
sequence, an error, or a panic, never the fuel marker. -/
theorem readLoopF_c10_terminates (bo : Endianness) (cr : Nat → Bool) (fuel : Nat)
    (src : List Nat) (len offset : Nat) (acc : List Extension)
    (ext : Extender) (src2 : List Nat) (len2 : Nat)
    (h : src.length < fuel) :
    readLoopF bo cr fuel src len offset acc ≠ .fuelOut ∧
    ExtensionSequence.fromReader bo cr ext src2 len2 ≠ .fuelOut := by
  constructor
  · exact readLoopF_fuel_sufficient bo cr fuel src len offset acc h
  · unfold ExtensionSequence.fromReader
    split
    · cases hr : readLoopF bo cr (src2.length + 1) src2 len2 0 [] with
      | ok exts off rest => simp
      | err e => simp
      | panicked => simp
      | fuelOut =>
        exact absurd hr
          (readLoopF_fuel_sufficient bo cr _ src2 len2 0 [] (Nat.lt_succ_self _))
    · simp

/-- C10 (witness): the termination theorem instantiated on a small
concrete source. -/
theorem readLoopF_c10_witness :
    readLoopF .little (fun _ => true) 9 [4, 0, 0, 0, 0, 0, 0, 0] 5 0 [] ≠ .fuelOut ∧
    ExtensionSequence.fromReader .little (fun _ => true) ⟨1, 0, 0, 0⟩ [4, 0, 0, 0, 0, 0, 0, 0] 5
      ≠ .fuelOut :=
  readLoopF_c10_terminates .little (fun _ => true) 9 [4, 0, 0, 0, 0, 0, 0, 0] 5 0 []
    ⟨1, 0, 0, 0⟩ [4, 0, 0, 0, 0, 0, 0, 0] 5 (by decide)

/-! ### C9 — optional extender read -/

/-- C9 (counterexample): the claim says `None` is returned exactly when
the source is exhausted before any byte is read, but a source holding
two bytes before a clean end of stream also returns `None` —
`read_exact` reports `UnexpectedEof` after consuming the partial bytes. -/
theorem Extender_c9_counterexample :
    Extender.fromReaderOptional ⟨[1, 2], none⟩ = .ok (none, ⟨[], none⟩) ∧
    ([1, 2] : List Nat) ≠ [] := by
  constructor
  · rfl
  · decide

/-- C9 (amended): `from_reader_optional` reads exactly 4 bytes on
success; it returns `None` exactly when fewer than 4 bytes are
available before an end-of-stream condition (whether 0 or 1–3 partial
bytes were read and consumed), and any non-EOF I/O failure is surfaced
as an error. -/
theorem Extender_c9_read_optional (bytes : List Nat) (term : Option IoErrorKind) :
    ((∃ s1, Extender.fromReaderOptional ⟨bytes, term⟩ = .ok (none, s1)) ↔
      bytes.length < 4 ∧ (term = none ∨ term = some .unexpectedEof)) ∧
    (∀ b0 b1 b2 b3 rest, bytes = b0 :: b1 :: b2 :: b3 :: rest →
      Extender.fromReaderOptional ⟨bytes, term⟩ = .ok (some ⟨b0, b1, b2, b3⟩, ⟨rest, term⟩)) ∧
    (∀ c, bytes.length < 4 → term = some (.other c) →
      Extender.fromReaderOptional ⟨bytes, term⟩ = .error (.other c)) := by
  rcases bytes with _ | ⟨b0, _ | ⟨b1, _ | ⟨b2, _ | ⟨b3, rest⟩⟩⟩⟩ <;>
    rcases term with _ | ⟨_ | c⟩ <;>
      simp [Extender.fromReaderOptional, readExact4] <;>
        tauto

/-- C9 (witness): the amended theorem instantiated at a two-byte source
with a clean end of stream. -/
theorem Extender_c9_witness :
    ((∃ s1, Extender.fromReaderOptional ⟨[1, 2], none⟩ = Except.ok (none, s1)) ↔
      ([1, 2] : List Nat).length < 4 ∧
        ((none : Option IoErrorKind) = none ∨
          (none : Option IoErrorKind) = some IoErrorKind.unexpectedEof)) ∧
    (∀ b0 b1 b2 b3 rest, ([1, 2] : List Nat) = b0 :: b1 :: b2 :: b3 :: rest →
      Extender.fromReaderOptional ⟨[1, 2], none⟩
        = Except.ok (some ⟨b0, b1, b2, b3⟩, ⟨rest, none⟩)) ∧
    (∀ c, ([1, 2] : List Nat).length < 4 → (none : Option IoErrorKind) = some (.other c) →
      Extender.fromReaderOptional ⟨[1, 2], none⟩ = Except.error (.other c)) :=
  Extender_c9_read_optional [1, 2] none

/-! ### C7 — the text builder -/

theorem i32OfInt_eq_self {x : Int} (h1 : -2147483648 ≤ x) (h2 : x < 2147483648) :
    i32OfInt x = x := by
  unfold i32OfInt
  split <;> omega

theorem toI32_small {n : Nat} (h : n < 2147483648) : toI32 n = (n : Int) := by
  unfold toI32
  split <;> omega

theorem u32OfI32_ofNat {x : Int} (h1 : 0 ≤ x) (h2 : x < 4294967296) :
    u32OfI32 x = x.toNat := by
  unfold u32OfI32
  omega

theorem i32AsUsize_ofNat {x : Int} (h1 : 0 ≤ x) (h2 : x < 18446744073709551616) :
    i32AsUsize x = x.toNat := by
  unfold i32AsUsize
  omega

theorem land_mask16 {n : Nat} (h : n < 2147483648) :
    Nat.land n 4294967280 = 16 * (n / 16) := by
  have hmask : (4294967280 : Nat) = 2 ^ 4 * (2 ^ 28 - 1) := by norm_num
  apply Nat.eq_of_testBit_eq
  intro i
  have hln : Nat.land n 4294967280 = n &&& 4294967280 := rfl
  have h16 : 16 * (n / 16) = 2 ^ 4 * (n >>> 4) := by
    rw [Nat.shiftRight_eq_div_pow]
    norm_num
  rw [hln, Nat.testBit_land, h16, Nat.testBit_mul_pow_two, Nat.testBit_shiftRight, hmask,
    Nat.testBit_mul_pow_two]
  by_cases h4 : 4 ≤ i
  · have hi : 4 + (i - 4) = i := by omega
    rw [hi, Nat.testBit_two_pow_sub_one]
    by_cases h32 : i - 4 < 28
    · simp [h4, h32]
    · have hbig : n.testBit i = false := by
        apply Nat.testBit_lt_two_pow
        calc n < 2147483648 := h
          _ = 2 ^ 31 := by norm_num
          _ ≤ 2 ^ i := Nat.pow_le_pow_right (by norm_num) (by omega)
      simp [h4, h32, hbig]
  · simp [h4]

theorem listResize_ge (l : List Nat) (m : Nat) (h : l.length ≤ m) :
    listResize l m 0 = l ++ List.replicate (m - l.length) 0 := by
  unfold listResize
  split
  · have hm : m = l.length := by omega
    subst hm
    simp
  · rfl

theorem dropWhile_replicate_zero (k : Nat) (l : List Nat) :
    List.dropWhile (fun b => b == 0) (List.replicate k 0 ++ l)
      = List.dropWhile (fun b => b == 0) l := by
  induction k with
  | zero => simp
  | succ j ih => simp [List.replicate_succ, ih]

theorem stripTrailingZeros_append_replicate (text : List Nat) (k : Nat)
    (h : text.getLast? ≠ some 0) :
    stripTrailingZeros (text ++ List.replicate k 0) = text := by
  unfold stripTrailingZeros
  rw [List.reverse_append, List.reverse_replicate, dropWhile_replicate_zero]
  rcases htr : text.reverse with _ | ⟨b, r⟩
  · simp only [List.dropWhile_nil, List.reverse_nil]
    exact (List.reverse_eq_nil_iff.mp htr).symm
  · have hb : text.getLast? = some b := by
      rw [← List.head?_reverse, htr]
      rfl
    have hbne : ¬((fun x => x == 0) b = true) := by
      simp only [beq_iff_eq]
      intro h0
      exact h (h0 ▸ hb)
    have hstep : List.dropWhile (fun x => x == 0) (b :: r) = b :: r :=
      List.dropWhile_cons_of_neg hbne
    rw [hstep, ← htr, List.reverse_reverse]

/-- C7 (counterexample): the claim's round-trip fails for a text ending
in a zero byte — `from_str(6, [0])` produces the padded payload of
eight zero bytes, and stripping trailing zeros yields `[]`, not `[0]`. -/
theorem Extension_c7_counterexample :
    Extension.fromStr 6 [0] = some ⟨16, 6, [0, 0, 0, 0, 0, 0, 0, 0]⟩ ∧
    stripTrailingZeros [0, 0, 0, 0, 0, 0, 0, 0] = [] ∧
    ([] : List Nat) ≠ [0] := by
  refine ⟨by decide, by decide, by decide⟩

/-- C7 (amended): for every code and every text whose byte length fits
the builder's `i32` arithmetic and which does not end in a zero byte,
`from_str` succeeds with a record whose stored size is a multiple of 16
and at least `8 + text.byte_length`, whose payload is the text bytes
zero-padded to stored size minus 8, and stripping trailing zero bytes
from the payload recovers the original text bytes.  (The round-trip
clause must except texts ending in a zero byte: the stripping also
removes their own trailing zeros, see the counterexample.) -/
theorem Extension_c7_fromStr (ecode : Int) (text : List Nat)
    (hlen : text.length ≤ 2147483624)
    (htrail : text.getLast? ≠ some 0) :
    ∃ ext, Extension.fromStr ecode text = some ext ∧
      ext.size % 16 = 0 ∧
      8 + (text.length : Int) ≤ ext.size ∧
      ext.data = text ++ List.replicate (ext.size.toNat - 8 - text.length) 0 ∧
      stripTrailingZeros ext.data = text := by
  simp only [Extension.fromStr]
  rw [@i32OfInt_eq_self ((text.length : Int)) (by omega) (by omega)]
  rw [@i32OfInt_eq_self (8 + (text.length : Int)) (by omega) (by omega)]
  unfold i32Land
  rw [u32OfI32_ofNat (by omega) (by omega)]
  have hu : u32OfI32 (-16) = 4294967280 := by decide
  rw [hu]
  have htn : ((8 : Int) + (text.length : Int) + 15).toNat = 23 + text.length := by
    omega
  rw [htn, land_mask16 (by omega)]
  have hPle : 16 * ((23 + text.length) / 16) ≤ 23 + text.length := by omega
  have hPge : 8 + text.length ≤ 16 * ((23 + text.length) / 16) := by omega
  rw [toI32_small (by omega), i32AsUsize_ofNat (by omega) (by omega)]
  have htn2 : ((16 * ((23 + text.length) / 16) : Nat) : Int).toNat
      = 16 * ((23 + text.length) / 16) := by omega
  rw [htn2]
  have hsub : usizeSub8 (16 * ((23 + text.length) / 16))
      = 16 * ((23 + text.length) / 16) - 8 := by
    unfold usizeSub8
    omega
  rw [hsub, listResize_ge text _ (by omega)]
  unfold Extension.new
  rw [i32AsUsize_ofNat (by omega) (by omega), htn2]
  rw [if_pos (by simp only [List.length_append, List.length_replicate]; omega)]
  refine ⟨_, rfl, ?_, ?_, ?_, ?_⟩
  · show ((16 * ((23 + text.length) / 16) : Nat) : Int) % 16 = 0
    omega
  · show 8 + (text.length : Int) ≤ ((16 * ((23 + text.length) / 16) : Nat) : Int)
    omega
  · show text ++ List.replicate (16 * ((23 + text.length) / 16) - 8 - text.length) 0
      = text ++ List.replicate
          (((16 * ((23 + text.length) / 16) : Nat) : Int).toNat - 8 - text.length) 0
    rw [htn2]
  · exact stripTrailingZeros_append_replicate text _ htrail

/-- C7 (witness): the amended theorem instantiated at code 6 and the
two text bytes of `hi`. -/
theorem Extension_c7_witness :
    ∃ ext, Extension.fromStr 6 [104, 105] = some ext ∧
      ext.size % 16 = 0 ∧
      8 + (([104, 105] : List Nat).length : Int) ≤ ext.size ∧
      ext.data = [104, 105]
        ++ List.replicate (ext.size.toNat - 8 - ([104, 105] : List Nat).length) 0 ∧
      stripTrailingZeros ext.data = [104, 105] :=
  Extension_c7_fromStr 6 [104, 105] (by decide) (by decide)

/-! ### C2 — offset accounting over valid streams -/

theorem readI32_encodeI32 (bo : Endianness) {x : Int} (h1 : -2147483648 ≤ x)
    (h2 : x < 2147483648) (rest : List Nat) :
    readI32 bo (encodeI32 bo x ++ rest) = some (x, rest) := by
  cases bo <;>
    · simp only [encodeI32, List.cons_append, List.nil_append, readI32, u32OfBytes,
        Option.some.injEq, Prod.mk.injEq]
      refine ⟨?_, trivial⟩
      unfold toI32 u32OfI32
      split <;> omega

theorem encodeExtList_length (bo : Endianness) (exts : List Extension) :
    exts.length ≤ (encodeExtList bo exts).length := by
  induction exts with
  | nil => simp [encodeExtList]
  | cons e es ih =>
    have h4 : (encodeI32 bo e.esize).length = 4 := by cases bo <;> rfl
    have h4b : (encodeI32 bo e.ecode).length = 4 := by cases bo <;> rfl
    simp only [encodeExtList, encodeExtension, List.length_append, List.length_cons, h4, h4b]
    omega

theorem readLoopF_encodeExtList (bo : Endianness) (cr : Nat → Bool) :
    ∀ (exts : List Extension) (fuel len offset : Nat) (acc : List Extension) (rest : List Nat),
      (∀ e ∈ exts, ValidRecord cr e) →
      offset + (exts.map fun e => e.esize.toNat).sum = len →
      len < 18446744073709551616 →
      exts.length < fuel →
      readLoopF bo cr fuel (encodeExtList bo exts ++ rest) len offset acc
        = .ok (acc ++ exts) len rest := by
  intro exts
  induction exts with
  | nil =>
    intro fuel len offset acc rest hv hsum hlen hfuel
    obtain ⟨f, rfl⟩ : ∃ f, fuel = f + 1 := ⟨fuel - 1, by omega⟩
    simp only [List.map_nil, List.sum_nil, Nat.add_zero] at hsum
    have hnlt : ¬ offset < len := by omega
    simp only [encodeExtList, List.nil_append, readLoopF, hnlt, if_false, List.append_nil]
    rw [hsum]
  | cons e es ih =>
    intro fuel len offset acc rest hv hsum hlen hfuel
    obtain ⟨f, rfl⟩ : ∃ f, fuel = f + 1 := ⟨fuel - 1, by omega⟩
    obtain ⟨he8, heLt, hcLe, hcLt, hdata, hcr⟩ := hv e (List.mem_cons_self e es)
    have hvs : ∀ x ∈ es, ValidRecord cr x := fun x hx => hv x (List.mem_cons_of_mem e hx)
    have h8n : 8 ≤ e.esize.toNat := by omega
    have hsum' : offset + e.esize.toNat + (es.map fun x => x.esize.toNat).sum = len := by
      simp only [List.map_cons, List.sum_cons] at hsum
      omega
    have hofflt : offset < len := by omega
    have hr1 := @readI32_encodeI32 bo e.esize (by omega) (by omega)
      (encodeI32 bo e.ecode ++ (e.edata ++ (encodeExtList bo es ++ rest)))
    have hr2 := @readI32_encodeI32 bo e.ecode (by omega) (by omega)
      (e.edata ++ (encodeExtList bo es ++ rest))
    have hds : dataSizeOf e.esize = e.edata.length := by
      unfold dataSizeOf i32AsUsize
      omega
    have htake : List.take (dataSizeOf e.esize) (e.edata ++ (encodeExtList bo es ++ rest))
        = e.edata := by
      rw [hds]
      exact List.take_left e.edata _
    have hdrop : List.drop (dataSizeOf e.esize) (e.edata ++ (encodeExtList bo es ++ rest))
        = encodeExtList bo es ++ rest := by
      rw [hds]
      exact List.drop_left e.edata _
    have hmax : max e.esize 8 = e.esize := max_eq_left he8
    have hnew : Extension.new (max e.esize 8) e.ecode e.edata = some e := by
      rw [hmax]
      unfold Extension.new i32AsUsize
      rw [if_pos (by omega)]
    have hadv : (offset + i32AsUsize e.esize) % 18446744073709551616
        = offset + e.esize.toNat := by
      unfold i32AsUsize
      omega
    have hcr2 : cr (dataSizeOf e.esize) = true := by
      rw [hds]
      exact hcr
    have hsrc : encodeExtList bo (e :: es) ++ rest
        = encodeI32 bo e.esize
            ++ (encodeI32 bo e.ecode ++ (e.edata ++ (encodeExtList bo es ++ rest))) := by
      simp [encodeExtList, encodeExtension, List.append_assoc]
    simp only [List.length_cons] at hfuel
    rw [hsrc]
    simp only [readLoopF, hofflt, if_true, hr1, hr2, hcr2, htake, hdrop, hnew, hadv]
    rw [if_neg (not_ne_iff.mpr hds.symm)]
    rw [ih f len (offset + e.esize.toNat) (acc ++ [e]) rest hvs (by omega) hlen (by omega)]
    simp

/-- C2 (counterexample): a stream on which `from_reader` returns
successfully but whose single record declares size 4: decoding
succeeds with one stored record of size 8, the loop offset ends at 4,
`bytes_on_disk` is 8, and the final offset 4 exceeds `len = 1` — so
neither `bytes_on_disk = offset` nor `offset ≤ len` holds for merely
successful streams. -/
theorem fromReader_c2_counterexample :
    readLoopF .little (fun _ => true) 9 [4, 0, 0, 0, 0, 0, 0, 0] 1 0 []
      = .ok [⟨8, 0, []⟩] 4 [] ∧
    ExtensionSequence.fromReader .little (fun _ => true) ⟨1, 0, 0, 0⟩
      [4, 0, 0, 0, 0, 0, 0, 0] 1
      = .ok ⟨⟨1, 0, 0, 0⟩, [⟨8, 0, []⟩]⟩ [] ∧
    ExtensionSequence.bytesOnDisk ⟨⟨1, 0, 0, 0⟩, [⟨8, 0, []⟩]⟩ = 8 ∧
    ¬((8 : Nat) = 4 ∧ 4 ≤ 1) := by
  refine ⟨by decide, by decide, by decide, by decide⟩

/-- C2 (amended): for every valid stream — a contiguous encoding of
well-formed records (declared sizes at least 8 and in `i32` range,
payload lengths equal to declared size minus 8, reservations granted)
whose declared sizes sum exactly to the byte budget `len` (itself a
`usize` value) — decoding succeeds, the sum of `size()` over the
decoded records (`bytes_on_disk`) equals the final decoding offset,
and that final offset equals `len`.  (For merely successful streams
the original claim fails: a record with declared size below 8 makes
`bytes_on_disk` exceed the offset, and the final record may overshoot
`len`; see the counterexample.) -/
theorem fromReader_c2_valid_streams (bo : Endianness) (cr : Nat → Bool) (ext : Extender)
    (exts : List Extension) (len : Nat) (rest : List Nat)
    (hext : ext.hasExtensions = true)
    (hv : ∀ e ∈ exts, ValidRecord cr e)
    (hsum : (exts.map fun e => e.esize.toNat).sum = len)
    (hlen : len < 18446744073709551616) :
    readLoopF bo cr ((encodeExtList bo exts ++ rest).length + 1)
        (encodeExtList bo exts ++ rest) len 0 []
      = .ok exts len rest ∧
    ExtensionSequence.fromReader bo cr ext (encodeExtList bo exts ++ rest) len
      = .ok ⟨ext, exts⟩ rest ∧
    ExtensionSequence.bytesOnDisk ⟨ext, exts⟩ = len := by
  have hfuel : exts.length < (encodeExtList bo exts ++ rest).length + 1 := by
    have hle := encodeExtList_length bo exts
    simp only [List.length_append]
    omega
  have hloop := readLoopF_encodeExtList bo cr exts
    ((encodeExtList bo exts ++ rest).length + 1) len 0 [] rest hv (by omega) hlen hfuel
  simp only [List.nil_append] at hloop
  refine ⟨hloop, ?_, ?_⟩
  · unfold ExtensionSequence.fromReader
    simp only [hext, if_true, hloop]
  · unfold ExtensionSequence.bytesOnDisk
    have hmap : (exts.map fun e => i32AsUsize e.size).sum
        = (exts.map fun e => e.esize.toNat).sum := by
      have hcong : ∀ e ∈ exts, i32AsUsize e.size = e.esize.toNat := by
        intro e he
        obtain ⟨he8, heLt, _, _, _, _⟩ := hv e he
        unfold i32AsUsize Extension.size
        omega
      exact congrArg List.sum (List.map_congr_left hcong)
    simp only [hmap, hsum]
    omega

/-- C2 (witness): the amended theorem on the spec's scenario — one
record `esize = 16, ecode = 6` with payload `hello` plus three NULs,
budget `len = 16`: decoding ends with offset exactly 16 and
`bytes_on_disk = 16`. -/
theorem fromReader_c2_witness :
    readLoopF .little (fun _ => true)
      ((encodeExtList .little [⟨16, 6, [104, 101, 108, 108, 111, 0, 0, 0]⟩] ++ []).length + 1)
      (encodeExtList .little [⟨16, 6, [104, 101, 108, 108, 111, 0, 0, 0]⟩] ++ []) 16 0 []
      = .ok [⟨16, 6, [104, 101, 108, 108, 111, 0, 0, 0]⟩] 16 [] ∧
    ExtensionSequence.fromReader .little (fun _ => true) ⟨1, 0, 0, 0⟩
      (encodeExtList .little [⟨16, 6, [104, 101, 108, 108, 111, 0, 0, 0]⟩] ++ []) 16
      = .ok ⟨⟨1, 0, 0, 0⟩, [⟨16, 6, [104, 101, 108, 108, 111, 0, 0, 0]⟩]⟩ [] ∧
    ExtensionSequence.bytesOnDisk ⟨⟨1, 0, 0, 0⟩, [⟨16, 6, [104, 101, 108, 108, 111, 0, 0, 0]⟩]⟩
      = 16 :=
  fromReader_c2_valid_streams .little (fun _ => true) ⟨1, 0, 0, 0⟩
    [⟨16, 6, [104, 101, 108, 108, 111, 0, 0, 0]⟩] 16 [] (by decide)
    (by
      intro e he
      simp only [List.mem_singleton] at he
      subst he
      exact ⟨by decide, by decide, by decide, by decide, by decide, rfl⟩)
    (by decide) (by decide)
